import Mathlib

/-!
Verification development for the polymarket-nhl-bot repository.

The JavaScript source is shallowly embedded: numbers are modelled as
rationals, JS `Map` objects as association lists with insertion-ordered
upsert, fallible operations as `Except`, and methods that read the wall
clock take the current time as an explicit argument.
-/

namespace NHLBot

/-! ## Odds conversions (src/services/OddsComparison.js) -/

/-- `americanToDecimal` from OddsComparison.js: decimal odds from American
odds; positive odds give `a / 100 + 1`, otherwise `100 / |a| + 1`. -/
def americanToDecimal (a : ℚ) : ℚ :=
  if a > 0 then a / 100 + 1 else 100 / |a| + 1

/-- `decimalToAmerican` from OddsComparison.js: for decimal odds at least 2
the result is `round ((d - 1) * 100)`, otherwise `round (-100 / (d - 1))`.
`Math.round` is half-up rounding, matching Mathlib `round` on ℚ. -/
def decimalToAmerican (d : ℚ) : ℤ :=
  if d ≥ 2 then round ((d - 1) * 100) else round (-100 / (d - 1))

/-- `polymarketPriceToDecimal`: defined only for prices strictly inside
(0,1); the source returns `null` outside that interval. -/
def polymarketPriceToDecimal (p : ℚ) : Option ℚ :=
  if p ≤ 0 ∨ p ≥ 1 then none else some (1 / p)

/-- `polymarketPriceToAmerican`: `null` outside (0,1), otherwise the
decimal odds converted to American odds. -/
def polymarketPriceToAmerican (p : ℚ) : Option ℤ :=
  if p ≤ 0 ∨ p ≥ 1 then none else some (decimalToAmerican (1 / p))

/-- `calculateImpliedProbability` for American odds input:
`1 / americanToDecimal a`. -/
def calculateImpliedProbability (a : ℚ) : ℚ :=
  1 / americanToDecimal a

/-- `calculateConfidence`: confidence tier from the edge magnitude. -/
def calculateConfidence (v : ℚ) : String :=
  if v > 15/100 then "high" else if v > 1/10 then "medium" else "low"

/-! ## Association-list model of a JS `Map` -/

/-- `Map.set` semantics on an association list: replace the value at the
first matching key in place, or append the binding when the key is new. -/
def mapSet {α : Type} : List (String × α) → String → α → List (String × α)
  | [], k, v => [(k, v)]
  | e :: rest, k, v =>
      if e.1 == k then (k, v) :: rest else e :: mapSet rest k v

/-- Key lookup, `Map.get` semantics. -/
def mapFind {α : Type} (m : List (String × α)) (k : String) : Option (String × α) :=
  m.find? (fun e => e.1 == k)

/-! ## Reconciliation engine data model (OddsComparison.js) -/

/-- One entry of a BoltOdds `outcomes` record: the market name, the target
team, the (parsed) odds value when the raw odds string is present and
non-empty, and an optional hyperlink. -/
structure RawOutcome where
  outcome_name : String
  outcome_target : String
  odds : Option ℚ
  link : String
  deriving Repr, DecidableEq

/-- A BoltOdds game payload as consumed by `updateBoltOddsData`. -/
structure BoltData where
  sport : String
  home_team : String
  away_team : String
  game : String
  outcomes : List (String × RawOutcome)
  deriving Repr, DecidableEq

/-- `createGameKey` from OddsComparison.js. -/
def createGameKey (b : BoltData) : String :=
  b.sport ++ "_" ++ b.home_team ++ "_" ++ b.away_team ++ "_" ++ b.game

/-- A stored BoltOdds snapshot: the payload plus the ingestion time. -/
structure BoltSnapshot where
  data : BoltData
  timestamp : ℤ
  deriving Repr, DecidableEq

/-- A Polymarket market payload as passed to `updatePolymarketData`;
`price` is absent (`none`) when the feed supplied no price field. -/
structure MarketData where
  price : Option ℚ
  deriving Repr, DecidableEq

/-- A stored Polymarket snapshot: the market data plus ingestion time. -/
structure PolySnapshot where
  price : Option ℚ
  timestamp : ℤ
  deriving Repr, DecidableEq

/-- The mutable state of the `OddsComparison` component: the two stores
and the configured minimum value threshold. -/
structure OCState where
  boltOddsData : List (String × BoltSnapshot)
  polymarketData : List (String × PolySnapshot)
  valueThreshold : ℚ
  deriving Repr, DecidableEq

/-- `updateBoltOddsData`: upsert the game snapshot under its derived key. -/
def updateBoltOddsData (st : OCState) (b : BoltData) (now : ℤ) : OCState :=
  { st with boltOddsData := mapSet st.boltOddsData (createGameKey b) ⟨b, now⟩ }

/-- `updatePolymarketData`: upsert the market snapshot under the token id.
The source performs no validation of the price. -/
def updatePolymarketData (st : OCState) (tokenId : String) (md : MarketData)
    (now : ℤ) : OCState :=
  { st with polymarketData := mapSet st.polymarketData tokenId ⟨md.price, now⟩ }

/-! ## Matching and value calculation (OddsComparison.js) -/

/-- One element of the array built by `findMoneylineOutcomes`: the
moneyline odds of one team in all three representations (display
formatting fields are omitted). -/
structure MlOutcome where
  team : String
  americanOdds : ℚ
  decimalOdds : ℚ
  impliedProbability : ℚ
  deriving Repr, DecidableEq

/-- `findMoneylineOutcomes`: collect every outcome whose market name is
`Moneyline` and whose odds field is present, converting its odds. -/
def findMoneylineOutcomes (b : BoltData) : List MlOutcome :=
  b.outcomes.filterMap fun e =>
    match e.2.odds with
    | some a =>
        if e.2.outcome_name = "Moneyline" then
          some ⟨e.2.outcome_target, a, americanToDecimal a,
                calculateImpliedProbability a⟩
        else none
    | none => none

/-- The `polymarket` block of a comparison built by `compareMarkets`. -/
structure PolySide where
  tokenId : String
  price : ℚ
  decimalOdds : Option ℚ
  americanOdds : Option ℤ
  deriving Repr, DecidableEq

/-- A market comparison as built by `compareMarkets`. -/
structure Comparison where
  gameKey : String
  tokenId : String
  boltOdds : List MlOutcome
  polymarket : PolySide
  timestamp : ℤ
  deriving Repr, DecidableEq

/-- `compareMarkets`: `null` unless the game is NHL with at least one
moneyline outcome; otherwise builds the comparison, substituting the
default price 1/2 when the stored price is absent or 0 (the source reads
`polyData.price || 0.5`, and both `undefined` and `0` are falsy). -/
def compareMarkets (gameKey : String) (b : BoltData) (tokenId : String)
    (p : PolySnapshot) (now : ℤ) : Option Comparison :=
  if b.sport ≠ "NHL" then none
  else
    let ml := findMoneylineOutcomes b
    if ml = [] then none
    else
      let price : ℚ :=
        match p.price with
        | none => 1/2
        | some q => if q = 0 then 1/2 else q
      some { gameKey := gameKey
             tokenId := tokenId
             boltOdds := ml
             polymarket :=
               ⟨tokenId, price, polymarketPriceToDecimal price,
                polymarketPriceToAmerican price⟩
             timestamp := now }

/-- `findMatchingMarkets`: try every (odds snapshot, price snapshot) pair
in store iteration order and keep the successful comparisons. -/
def findMatchingMarkets (st : OCState) (now : ℤ) : List Comparison :=
  st.boltOddsData.flatMap fun g =>
    st.polymarketData.filterMap fun t =>
      compareMarkets g.1 g.2.data t.1 t.2 now

/-- The record returned by `calculateValue` on success. -/
structure ValueAnalysis where
  value : ℚ
  outcome : MlOutcome
  polymarketOdds : ℚ
  recommendedAction : String
  confidence : String
  deriving Repr, DecidableEq

/-- The edge computed for one outcome inside `calculateValue`:
`outcome.impliedProbability - (1 / polymarket.decimalOdds)`. -/
def edgeFn (d : ℚ) (o : MlOutcome) : ℚ :=
  o.impliedProbability - 1 / d

/-- The best-value accumulator loop inside `calculateValue`. An outcome is
considered only when its edge exceeds the threshold; the held best is
replaced when it is 0 (JS falsy) or strictly beaten, so the first maximum
encountered is kept. -/
def calcLoop (t d : ℚ) : List MlOutcome → Option (ℚ × MlOutcome) →
    Option (ℚ × MlOutcome)
  | [], best => best
  | o :: rest, best =>
      let v := edgeFn d o
      let best' :=
        if v > t then
          match best with
          | none => some (v, o)
          | some (bv, bo) =>
              if bv = 0 ∨ v > bv then some (v, o) else some (bv, bo)
        else best
      calcLoop t d rest best'

/-- `calculateValue`: `null` when there are no odds-side outcomes or the
price-side decimal odds are falsy; otherwise the best edge above the
threshold together with its outcome and a confidence tier, `null` when no
outcome clears the threshold. -/
def calculateValue (t : ℚ) (c : Comparison) : Option ValueAnalysis :=
  if c.boltOdds = [] then none
  else
    match c.polymarket.decimalOdds with
    | none => none
    | some d =>
        if d = 0 then none
        else
          match calcLoop t d c.boltOdds none with
          | none => none
          | some (bv, bo) =>
              if bv = 0 then none
              else some ⟨bv, bo, d, "buy", calculateConfidence bv⟩

/-- The `recommendation` block of a trading opportunity. -/
structure Recommendation where
  action : String
  tokenId : String
  confidence : String
  expectedValue : ℚ
  deriving Repr, DecidableEq

/-- A trading opportunity: the comparison together with its value
analysis and the derived recommendation. -/
structure Opp where
  comparison : Comparison
  valueAnalysis : ValueAnalysis
  recommendation : Recommendation
  deriving Repr, DecidableEq

/-- Build the opportunity record pushed by `findTradingOpportunities`. -/
def mkOpp (c : Comparison) (v : ValueAnalysis) : Opp :=
  ⟨c, v, ⟨v.recommendedAction, c.tokenId, v.confidence, v.value⟩⟩

/-- The descending-by-edge ordering used by the final sort (the JS
comparator is `(a, b) => b.value - a.value`). -/
def oppGE (a b : Opp) : Prop :=
  b.valueAnalysis.value ≤ a.valueAnalysis.value

instance : DecidableRel oppGE := fun a b =>
  inferInstanceAs
    (Decidable (b.valueAnalysis.value ≤ a.valueAnalysis.value))

instance : IsTotal Opp oppGE :=
  ⟨fun a b => le_total b.valueAnalysis.value a.valueAnalysis.value⟩

instance : IsTrans Opp oppGE :=
  ⟨fun _ _ _ h1 h2 => le_trans h2 h1⟩

/-- `findTradingOpportunities`: evaluate every match, keep those with a
value analysis, and sort descending by edge. The method only reads the
stores, so the embedded version returns the state unchanged. -/
def findTradingOpportunities (st : OCState) (now : ℤ) :
    List Opp × OCState :=
  (((findMatchingMarkets st now).filterMap fun m =>
      (calculateValue st.valueThreshold m).map (mkOpp m)).insertionSort
    oppGE, st)

/-! ## Position lifecycle manager (TradingBot.js) -/

/-- A recorded position. `status` is the string the source stores
("open" at creation, "closed" at full sell). -/
structure Position where
  tokenId : String
  gameKey : String
  amount : ℚ
  price : ℚ
  buyTime : ℤ
  status : String
  sellPrice : Option ℚ
  sellTime : Option ℤ
  deriving Repr, DecidableEq

/-- An append-only trading-history record. -/
structure HistoryEntry where
  tokenId : String
  action : String
  amount : ℚ
  price : ℚ
  time : ℤ
  deriving Repr, DecidableEq

/-- Order book returned by the external interface: lists of ask and bid
prices, best first. -/
structure Orderbook where
  asks : List ℚ
  bids : List ℚ
  deriving Repr, DecidableEq

/-- The TradingBot state relevant to the position ledger: the active
position map, the trading history, and the configuration values the
constructor copies out of `config`. -/
structure BotState where
  activePositions : List (String × Position)
  tradingHistory : List HistoryEntry
  maxPositionSize : ℚ
  autoSellThreshold : ℚ
  deriving Repr, DecidableEq

/-- The initial TradingBot state: empty ledger and history. -/
def initBotState (maxSize threshold : ℚ) : BotState :=
  ⟨[], [], maxSize, threshold⟩

/-- `getTotalPositionValue`: sum of the open position amounts. -/
def getTotalPositionValue (st : BotState) : ℚ :=
  (st.activePositions.map fun e => e.2.amount).sum

/-- `executeBuyOrder`: no-op when the order book has no ask; otherwise
records an "open" position sized `min (10% of cap) 50` at the best ask
and appends a "buy" history entry. -/
def executeBuyOrder (st : BotState) (opp : Opp) (ob : Orderbook)
    (now : ℤ) : BotState :=
  match ob.asks.head? with
  | none => st
  | some askPrice =>
      let tokenId := opp.recommendation.tokenId
      let positionSize := min (st.maxPositionSize * (1/10)) 50
      let pos : Position :=
        { tokenId := tokenId
          gameKey := opp.comparison.gameKey
          amount := positionSize
          price := askPrice
          buyTime := now
          status := "open"
          sellPrice := none
          sellTime := none }
      { st with
        activePositions := mapSet st.activePositions tokenId pos
        tradingHistory :=
          st.tradingHistory ++ [⟨tokenId, "buy", positionSize, askPrice, now⟩] }

/-- `evaluateOpportunity`: skip when a position already exists for the
token or the portfolio cap is reached; buy only on medium or high
confidence. -/
def evaluateOpportunity (st : BotState) (opp : Opp) (ob : Orderbook)
    (now : ℤ) : BotState :=
  if (mapFind st.activePositions opp.recommendation.tokenId).isSome then st
  else if st.maxPositionSize ≤ getTotalPositionValue st then st
  else if opp.valueAnalysis.confidence = "high" ∨
          opp.valueAnalysis.confidence = "medium" then
    executeBuyOrder st opp ob now
  else st

/-- The failure conditions of `sellPosition` (the source throws). -/
inductive SellError where
  | notFound
  | noLiquidity
  deriving Repr, DecidableEq

/-- The `const sellAmount = amount || position.amount` computation: the
requested amount unless it is absent or 0 (both JS-falsy), in which case
the position's full amount. -/
def sellAmountOf (pos : Position) : Option ℚ → ℚ
  | none => pos.amount
  | some a => if a = 0 then pos.amount else a

/-- `sellPosition tokenId amount?`: NotFound when no active position
exists, NoLiquidity when the order book has no bid; otherwise decrement
the amount by the requested amount (full amount when the argument is
absent or 0, both falsy under `amount || position.amount`), delete the
position when the new amount is ≤ 0, and append a "sell" history entry.
Returns the executed sell amount alongside the new state. -/
def sellPosition (st : BotState) (tokenId : String) (amount : Option ℚ)
    (ob : Orderbook) (now : ℤ) : Except SellError (BotState × ℚ) :=
  match mapFind st.activePositions tokenId with
  | none => .error .notFound
  | some entry =>
      let pos := entry.2
      let sellAmount := sellAmountOf pos amount
      match ob.bids.head? with
      | none => .error .noLiquidity
      | some bidPrice =>
          let newAmount := pos.amount - sellAmount
          let pos' : Position :=
            { pos with
              amount := newAmount
              sellPrice := some bidPrice
              sellTime := some now
              status := if newAmount ≤ 0 then "closed" else pos.status }
          let positions' :=
            if newAmount ≤ 0 then
              st.activePositions.filter (fun e => !(e.1 == tokenId))
            else mapSet st.activePositions tokenId pos'
          .ok ({ st with
                 activePositions := positions'
                 tradingHistory :=
                   st.tradingHistory ++
                     [⟨tokenId, "sell", sellAmount, bidPrice, now⟩] },
               sellAmount)

/-- `checkAutoSellConditions`: the tokens queued for a full sell on one
sweep — those whose hours held, `(now - buyTime) / 3600000`, exceed the
literal constant 2 in the source (`if (hoursHeld > 2)`); the configured
`autoSellThreshold` field is not consulted. -/
def checkAutoSellConditions (st : BotState) (now : ℤ) : List String :=
  st.activePositions.filterMap fun e =>
    if ((now - e.2.buyTime : ℤ) : ℚ) / 3600000 > 2 then some e.1 else none

/-- One externally-triggered ledger operation, with the inputs the
corresponding handler reads from the outside world. -/
inductive BotOp where
  | buy (opp : Opp) (ob : Orderbook) (now : ℤ)
  | sell (tokenId : String) (amount : Option ℚ) (ob : Orderbook) (now : ℤ)

/-- Apply one operation; a failed sell throws in the source and leaves
the state unchanged. -/
def applyOp (st : BotState) : BotOp → BotState
  | .buy opp ob now => evaluateOpportunity st opp ob now
  | .sell tokenId amount ob now =>
      match sellPosition st tokenId amount ob now with
      | .ok (st', _) => st'
      | .error _ => st

/-- Run a sequence of buy/sell operations. -/
def runOps (st : BotState) (ops : List BotOp) : BotState :=
  ops.foldl applyOp st

/-! ## Feed connection manager (src/services/BoltOddsClient.js) -/

/-- The connection-manager state set up by the BoltOddsClient
constructor. -/
structure ConnState where
  isConnected : Bool
  reconnectAttempts : ℕ
  maxReconnectAttempts : ℕ
  reconnectDelay : ℕ
  deriving Repr, DecidableEq

/-- The constructor defaults: disconnected, 0 attempts, cap 10, base
delay 5000 ms. -/
def initConnState : ConnState :=
  ⟨false, 0, 10, 5000⟩

/-- `handleReconnection`: give up (scheduling nothing) once the attempt
counter has reached the cap; otherwise increment the counter and schedule
a retry after `reconnectDelay * 2 ^ (attempts - 1)` milliseconds. -/
def handleReconnection (s : ConnState) : ConnState × Option ℕ :=
  if s.maxReconnectAttempts ≤ s.reconnectAttempts then (s, none)
  else
    let attempts := s.reconnectAttempts + 1
    ({ s with reconnectAttempts := attempts },
     some (s.reconnectDelay * 2 ^ (attempts - 1)))

/-- Iterate `handleReconnection` over a run of consecutive connection
failures, collecting the scheduled delays. -/
def iterateReconnect (s : ConnState) : ℕ → ConnState × List ℕ
  | 0 => (s, [])
  | k + 1 =>
      let step := handleReconnection s
      let rest := iterateReconnect step.1 k
      (rest.1, step.2.elim rest.2 (· :: rest.2))

/-- `getConnectionStatus`: the connected flag and attempt count. -/
def getConnectionStatus (s : ConnState) : Bool × ℕ :=
  (s.isConnected, s.reconnectAttempts)

/-! ## Proof-side helper definitions -/

/-- The maximum edge over a nonempty outcome list `o0 :: rest`. -/
def maxEdge (d : ℚ) (o0 : MlOutcome) (rest : List MlOutcome) : ℚ :=
  (rest.map (edgeFn d)).foldl max (edgeFn d o0)

/-- Loop invariant for `calcLoop` over the processed prefix `p`: an empty
accumulator means no processed edge exceeds the threshold; a held best
`(bv, bo)` exceeds the threshold, is the edge of `bo`, dominates every
processed edge, and `bo` is the first processed outcome attaining it. -/
def CalcInv (t d : ℚ) (p : List MlOutcome) :
    Option (ℚ × MlOutcome) → Prop
  | none => ∀ o ∈ p, edgeFn d o ≤ t
  | some (bv, bo) =>
      t < bv ∧ edgeFn d bo = bv ∧ (∀ o ∈ p, edgeFn d o ≤ bv) ∧
        p.find? (fun o => decide (edgeFn d o = bv)) = some bo

/-- Replace a comparison's ingestion timestamp. -/
def retimeComparison (n : ℤ) (c : Comparison) : Comparison :=
  { c with timestamp := n }

/-- Replace an opportunity's ingestion timestamp. -/
def retimeOpp (n : ℤ) (o : Opp) : Opp :=
  { o with comparison := retimeComparison n o.comparison }

/-! ## C5: odds conversion round trip -/

/-- C5. For every American odds value x in {+150, -120, +100, -300},
converting American odds to decimal odds and back recovers x exactly
(hence in particular within rounding tolerance). -/
theorem americanDecimal_roundTrip :
    decimalToAmerican (americanToDecimal 150) = 150 ∧
    decimalToAmerican (americanToDecimal (-120)) = -120 ∧
    decimalToAmerican (americanToDecimal 100) = 100 ∧
    decimalToAmerican (americanToDecimal (-300)) = -300 := by
  refine ⟨?_, ?_, ?_, ?_⟩ <;>
    norm_num [americanToDecimal, decimalToAmerican, round_eq]

/-! ## Lemmas about the association-list map model -/

theorem mapFind_mapSet_self {α : Type} (m : List (String × α)) (k : String)
    (v : α) : mapFind (mapSet m k v) k = some (k, v) := by
  induction m with
  | nil => simp [mapSet, mapFind, List.find?]
  | cons e rest ih =>
      by_cases h : e.1 == k
      · simp [mapSet, h, mapFind, List.find?]
      · simp only [mapSet, h, if_neg, Bool.false_eq_true, ite_false]
        simpa [mapFind, List.find?, h] using ih

theorem mapSet_mem_self {α : Type} (m : List (String × α)) (k : String)
    (v : α) : (k, v) ∈ mapSet m k v := by
  induction m with
  | nil => simp [mapSet]
  | cons e rest ih =>
      by_cases h : e.1 == k <;> simp [mapSet, h, ih]

theorem mapSet_mem {α : Type} {m : List (String × α)} {k : String}
    {v : α} {x : String × α} (hx : x ∈ mapSet m k v) :
    x = (k, v) ∨ x ∈ m := by
  induction m with
  | nil => simpa [mapSet] using hx
  | cons e rest ih =>
      by_cases h : e.1 == k
      · simp only [mapSet, h, ite_true, List.mem_cons] at hx
        rcases hx with rfl | hx'
        · exact Or.inl rfl
        · exact Or.inr (by simp [hx'])
      · simp only [mapSet, h, Bool.false_eq_true, ite_false,
          List.mem_cons] at hx
        rcases hx with rfl | hx'
        · exact Or.inr (by simp)
        · rcases ih hx' with h1 | h1
          · exact Or.inl h1
          · exact Or.inr (by simp [h1])

theorem mapSet_keys_mem {α : Type} {m : List (String × α)} {k x : String}
    {v : α} (hx : x ∈ (mapSet m k v).map Prod.fst) :
    x = k ∨ x ∈ m.map Prod.fst := by
  induction m with
  | nil => simpa [mapSet] using hx
  | cons e rest ih =>
      by_cases h : e.1 == k
      · simp only [mapSet, h, ite_true, List.map_cons, List.mem_cons] at hx
        rcases hx with rfl | hx'
        · exact Or.inl rfl
        · exact Or.inr (by simp [hx'])
      · simp only [mapSet, h, Bool.false_eq_true, ite_false, List.map_cons,
          List.mem_cons] at hx
        rcases hx with rfl | hx'
        · exact Or.inr (by simp)
        · rcases ih hx' with h1 | h1
          · exact Or.inl h1
          · exact Or.inr (by simp [h1])

theorem mapSet_keys_nodup {α : Type} {m : List (String × α)} (k : String)
    (v : α) (hm : (m.map Prod.fst).Nodup) :
    ((mapSet m k v).map Prod.fst).Nodup := by
  induction m with
  | nil => simp [mapSet]
  | cons e rest ih =>
      simp only [List.map_cons, List.nodup_cons] at hm
      by_cases h : e.1 == k
      · have hk : e.1 = k := by simpa using h
        simp only [mapSet, h, ite_true, List.map_cons, List.nodup_cons]
        exact ⟨by simpa [hk] using hm.1, hm.2⟩
      · have hk : e.1 ≠ k := by simpa using h
        simp only [mapSet, h, Bool.false_eq_true, ite_false, List.map_cons,
          List.nodup_cons]
        refine ⟨fun hx => ?_, ih hm.2⟩
        rcases mapSet_keys_mem hx with h1 | h1
        · exact hk h1
        · exact hm.1 h1

theorem filter_keys_nodup {α : Type} (m : List (String × α))
    (p : String × α → Bool) (hm : (m.map Prod.fst).Nodup) :
    ((m.filter p).map Prod.fst).Nodup :=
  hm.sublist ((m.filter_sublist).map Prod.fst)

/-! ## Lemmas about `foldl max` -/

theorem le_foldl_max (a : ℚ) (l : List ℚ) : a ≤ l.foldl max a := by
  induction l generalizing a with
  | nil => exact le_refl a
  | cons x xs ih => exact le_trans (le_max_left a x) (ih (max a x))

theorem mem_le_foldl_max {x : ℚ} {l : List ℚ} (a : ℚ) (hx : x ∈ l) :
    x ≤ l.foldl max a := by
  induction l generalizing a with
  | nil => cases hx
  | cons y ys ih =>
      rcases List.mem_cons.mp hx with rfl | h
      · exact le_trans (le_max_right a x) (le_foldl_max _ ys)
      · exact ih _ h

theorem foldl_max_le {a b : ℚ} {l : List ℚ} (ha : a ≤ b)
    (hl : ∀ x ∈ l, x ≤ b) : l.foldl max a ≤ b := by
  induction l generalizing a with
  | nil => exact ha
  | cons x xs ih =>
      exact ih (max_le ha (hl x (by simp))) fun y hy => hl y (by simp [hy])

theorem foldl_max_attained (a : ℚ) (l : List ℚ) :
    l.foldl max a = a ∨ l.foldl max a ∈ l := by
  induction l generalizing a with
  | nil => exact Or.inl rfl
  | cons y ys ih =>
      rcases ih (max a y) with h | h
      · rcases max_choice a y with h1 | h1
        · exact Or.inl (by rw [List.foldl_cons, h, h1])
        · exact Or.inr (by rw [List.foldl_cons, h, h1]; simp)
      · exact Or.inr (by simp [List.foldl_cons]; right; exact h)

/-! ## Lemmas about `calcLoop` -/

theorem calcLoop_some_gt (t d : ℚ) :
    ∀ (l : List MlOutcome) (acc : Option (ℚ × MlOutcome)),
      (∀ bv bo, acc = some (bv, bo) → t < bv) →
      ∀ bv bo, calcLoop t d l acc = some (bv, bo) → t < bv := by
  intro l
  induction l with
  | nil => intro acc hacc bv bo h; exact hacc bv bo h
  | cons o rest ih =>
      intro acc hacc bv bo h
      simp only [calcLoop] at h
      refine ih _ ?_ bv bo h
      intro bv' bo' hacc'
      by_cases hv : edgeFn d o > t
      · simp only [hv, ite_true] at hacc'
        match acc, hacc' with
        | none, hacc' =>
            cases hacc'; exact hv
        | some (bv0, bo0), hacc' =>
            by_cases hrep : bv0 = 0 ∨ edgeFn d o > bv0
            · simp only [hrep, ite_true] at hacc'
              cases hacc'; exact hv
            · simp only [hrep, ite_false] at hacc'
              cases hacc'; exact hacc bv' bo' rfl
      · simp only [hv, ite_false] at hacc'
        exact hacc bv' bo' hacc'

theorem calcLoop_inv (t d : ℚ) (ht : 0 ≤ t) :
    ∀ (l p : List MlOutcome) (acc : Option (ℚ × MlOutcome)),
      CalcInv t d p acc → CalcInv t d (p ++ l) (calcLoop t d l acc) := by
  intro l
  induction l with
  | nil => intro p acc h; simpa [calcLoop] using h
  | cons o rest ih =>
      intro p acc h
      have hgoal : p ++ o :: rest = (p ++ [o]) ++ rest := by simp
      rw [hgoal]
      simp only [calcLoop]
      refine ih (p ++ [o]) _ ?_
      by_cases hv : edgeFn d o > t
      · simp only [hv, ite_true]
        match acc, h with
        | none, h =>
            refine ⟨hv, rfl, ?_, ?_⟩
            · intro x hx
              rcases List.mem_append.mp hx with hx' | hx'
              · exact le_of_lt (lt_of_le_of_lt (h x hx') hv)
              · simp only [List.mem_singleton] at hx'
                exact le_of_eq (by rw [hx'])
            · rw [List.find?_append]
              have hnone : p.find? (fun x => decide (edgeFn d x = edgeFn d o))
                  = none := by
                rw [List.find?_eq_none]
                intro x hx
                simp only [decide_eq_true_eq]
                exact fun hq =>
                  absurd (lt_of_le_of_lt (hq ▸ h x hx) hv) (lt_irrefl _)
              simp [hnone, List.find?]
        | some (bv0, bo0), h =>
            obtain ⟨hbt, hbe, hbd, hbf⟩ := h
            have hb0 : bv0 ≠ 0 := ne_of_gt (lt_of_le_of_lt ht hbt)
            by_cases hrep : edgeFn d o > bv0
            · simp only [hb0, hrep, or_true, false_or, ite_true]
              refine ⟨hv, rfl, ?_, ?_⟩
              · intro x hx
                rcases List.mem_append.mp hx with hx' | hx'
                · exact le_of_lt (lt_of_le_of_lt (hbd x hx') hrep)
                · simp only [List.mem_singleton] at hx'
                  exact le_of_eq (by rw [hx'])
              · rw [List.find?_append]
                have hnone : p.find?
                    (fun x => decide (edgeFn d x = edgeFn d o)) = none := by
                  rw [List.find?_eq_none]
                  intro x hx
                  simp only [decide_eq_true_eq]
                  exact fun hq =>
                    absurd (lt_of_le_of_lt (hq ▸ hbd x hx) hrep) (lt_irrefl _)
                simp [hnone, List.find?]
            · have hcond : ¬(bv0 = 0 ∨ edgeFn d o > bv0) := by
                rintro (h1 | h1)
                · exact hb0 h1
                · exact hrep h1
              simp only [hcond, ite_false]
              refine ⟨hbt, hbe, ?_, ?_⟩
              · intro x hx
                rcases List.mem_append.mp hx with hx' | hx'
                · exact hbd x hx'
                · simp only [List.mem_singleton] at hx'
                  exact le_of_not_lt (by rw [hx']; exact hrep)
              · rw [List.find?_append, hbf]
                rfl
      · simp only [hv, ite_false]
        match acc, h with
        | none, h =>
            intro x hx
            rcases List.mem_append.mp hx with hx' | hx'
            · exact h x hx'
            · simp only [List.mem_singleton] at hx'
              exact le_of_not_lt (by rw [hx']; exact hv)
        | some (bv0, bo0), h =>
            obtain ⟨hbt, hbe, hbd, hbf⟩ := h
            refine ⟨hbt, hbe, ?_, ?_⟩
            · intro x hx
              rcases List.mem_append.mp hx with hx' | hx'
              · exact hbd x hx'
              · simp only [List.mem_singleton] at hx'
                rw [hx']
                exact le_of_lt (lt_of_le_of_lt (le_of_not_lt hv) hbt)
            · rw [List.find?_append, hbf]
              rfl

theorem calculateValue_some_gt (t : ℚ) (c : Comparison) (va : ValueAnalysis)
    (h : calculateValue t c = some va) : t < va.value := by
  by_cases hbo : c.boltOdds = []
  · simp [calculateValue, hbo] at h
  · rcases hdo : c.polymarket.decimalOdds with _ | d
    · simp [calculateValue, hbo, hdo] at h
    · by_cases hd0 : d = 0
      · simp [calculateValue, hbo, hdo, hd0] at h
      · rcases hcl : calcLoop t d c.boltOdds none with _ | ⟨bv, bo⟩
        · simp [calculateValue, hbo, hdo, hd0, hcl] at h
        · by_cases hbv : bv = 0
          · simp [calculateValue, hbo, hdo, hd0, hcl, hbv] at h
          · have hv : va.value = bv := by
              simp [calculateValue, hbo, hdo, hd0, hcl, hbv] at h
              rw [← h]
            rw [hv]
            exact calcLoop_some_gt t d c.boltOdds none
              (by intro bv' bo' h'; cases h') bv bo hcl

/-! ## C4: value calculation retains the first maximum edge -/

/-- C4. For a comparison with a nonempty odds side and nonzero price-side
decimal odds, and a nonnegative threshold (the configuration enforces
`MIN_VALUE_THRESHOLD ∈ [0,1]`), `calculateValue` computes each outcome's
edge as implied probability minus `1 / decimal odds`, returns nothing
exactly when the maximum edge does not exceed the threshold, and otherwise
returns the maximum edge together with the first outcome in encounter
order attaining it. -/
theorem calculateValue_best_edge (t d : ℚ) (c : Comparison)
    (o0 : MlOutcome) (rest : List MlOutcome) (ht : 0 ≤ t)
    (hbo : c.boltOdds = o0 :: rest) (hd : c.polymarket.decimalOdds = some d)
    (hd0 : d ≠ 0) :
    (calculateValue t c = none ↔ maxEdge d o0 rest ≤ t) ∧
    (∀ va, calculateValue t c = some va →
      va.value = maxEdge d o0 rest ∧ t < maxEdge d o0 rest ∧
      (o0 :: rest).find?
          (fun o => decide (edgeFn d o = maxEdge d o0 rest))
        = some va.outcome) := by
  have hM_ub : ∀ x ∈ o0 :: rest, edgeFn d x ≤ maxEdge d o0 rest := by
    intro x hx
    rcases List.mem_cons.mp hx with rfl | hx'
    · exact le_foldl_max _ _
    · exact mem_le_foldl_max _ (List.mem_map.mpr ⟨x, hx', rfl⟩)
  have hne : ¬(c.boltOdds = []) := by simp [hbo]
  have hinv := calcLoop_inv t d ht (o0 :: rest) [] none
    (fun o ho => absurd ho (List.not_mem_nil o))
  rw [List.nil_append] at hinv
  rcases hcl : calcLoop t d (o0 :: rest) none with _ | ⟨bv, bo⟩
  · rw [hcl] at hinv
    have hMle : maxEdge d o0 rest ≤ t := by
      refine foldl_max_le (hinv o0 (by simp)) ?_
      intro x hx
      rcases List.mem_map.mp hx with ⟨y, hy, rfl⟩
      exact hinv y (by simp [hy])
    have hval : calculateValue t c = none := by
      simp [calculateValue, hne, hd, hd0, hbo, hcl]
    constructor
    · exact ⟨fun _ => hMle, fun _ => hval⟩
    · intro va hva
      rw [hval] at hva
      cases hva
  · rw [hcl] at hinv
    obtain ⟨hbt, hbe, hbd, hbf⟩ := hinv
    have hbv0 : ¬(bv = 0) := ne_of_gt (lt_of_le_of_lt ht hbt)
    have hval : calculateValue t c =
        some ⟨bv, bo, d, "buy", calculateConfidence bv⟩ := by
      simp [calculateValue, hne, hd, hd0, hbo, hcl, hbv0]
    have hbM : bv = maxEdge d o0 rest := by
      refine le_antisymm ?_ ?_
      · have hmem : bo ∈ o0 :: rest := List.mem_of_find?_eq_some hbf
        exact hbe ▸ hM_ub bo hmem
      · refine foldl_max_le (hbd o0 (by simp)) ?_
        intro x hx
        rcases List.mem_map.mp hx with ⟨y, hy, rfl⟩
        exact hbd y (by simp [hy])
    constructor
    · constructor
      · intro h; rw [hval] at h; cases h
      · intro h
        exact absurd hbt (not_lt.mpr (hbM ▸ h))
    · intro va hva
      rw [hval] at hva
      injection hva with hva'
      rw [← hva']
      exact ⟨hbM.symm ▸ rfl, hbM ▸ hbt, hbM ▸ hbf⟩

/-- Witness for C4 at a concrete comparison: two outcomes with implied
probabilities 7/10 and 3/10 against decimal odds 2, threshold 1/20. -/
theorem calculateValue_best_edge_witness :
    (0 : ℚ) ≤ 1/20 ∧
    ((calculateValue (1/20)
        ⟨"g", "t", [⟨"A", -233, 10/7, 7/10⟩, ⟨"B", 233, 10/3, 3/10⟩],
         ⟨"t", 1/2, some 2, some 100⟩, 0⟩ = none ↔
      maxEdge 2 ⟨"A", -233, 10/7, 7/10⟩ [⟨"B", 233, 10/3, 3/10⟩] ≤ 1/20) ∧
    (∀ va, calculateValue (1/20)
        ⟨"g", "t", [⟨"A", -233, 10/7, 7/10⟩, ⟨"B", 233, 10/3, 3/10⟩],
         ⟨"t", 1/2, some 2, some 100⟩, 0⟩ = some va →
      va.value = maxEdge 2 ⟨"A", -233, 10/7, 7/10⟩ [⟨"B", 233, 10/3, 3/10⟩] ∧
      (1/20 : ℚ) < maxEdge 2 ⟨"A", -233, 10/7, 7/10⟩ [⟨"B", 233, 10/3, 3/10⟩] ∧
      ([⟨"A", -233, 10/7, 7/10⟩, ⟨"B", 233, 10/3, 3/10⟩] :
          List MlOutcome).find?
          (fun o => decide (edgeFn 2 o =
            maxEdge 2 ⟨"A", -233, 10/7, 7/10⟩ [⟨"B", 233, 10/3, 3/10⟩]))
        = some va.outcome)) :=
  ⟨by norm_num,
   calculateValue_best_edge (1/20) 2 _ _ _ (by norm_num) rfl rfl
     (by norm_num)⟩

/-! ## C1: price ingestion does not validate -/

/-- Counterexample to C1. Ingesting the out-of-range price 3/2 through
`updatePolymarketData` stores a PriceSnapshot for it: the upsert is
unconditional, so prices outside (0,1) are not rejected at ingestion. -/
theorem ingestPrice_stores_out_of_range :
    ¬((3/2 : ℚ) < 1) ∧
    mapFind ((updatePolymarketData ⟨[], [], 1/20⟩ "tok1" ⟨some (3/2)⟩
        7).polymarketData) "tok1" = some ("tok1", ⟨some (3/2), 7⟩) := by
  constructor
  · norm_num
  · rfl

/-- C1 (amended). `updatePolymarketData` upserts the snapshot for every
ingested price, with no validity check: after ingestion the store always
holds the given price under the given token, and the odds store is
untouched. Prices outside (0,1) are only neutralised later, at
conversion: `polymarketPriceToDecimal` is defined exactly on (0,1). -/
theorem ingestPrice_unvalidated_upsert (st : OCState) (tokenId : String)
    (md : MarketData) (now : ℤ) :
    mapFind (updatePolymarketData st tokenId md now).polymarketData tokenId
        = some (tokenId, ⟨md.price, now⟩) ∧
    (updatePolymarketData st tokenId md now).boltOddsData =
      st.boltOddsData ∧
    ∀ p : ℚ, (polymarketPriceToDecimal p).isSome ↔ 0 < p ∧ p < 1 := by
  refine ⟨mapFind_mapSet_self _ _ _, rfl, ?_⟩
  intro p
  by_cases h : p ≤ 0 ∨ p ≥ 1
  · simp only [polymarketPriceToDecimal, h, ite_true]
    constructor
    · intro h'; cases h'
    · rintro ⟨h1, h2⟩
      rcases h with h' | h'
      · exact absurd h1 (not_lt.mpr h')
      · exact absurd h2 (not_lt.mpr h')
  · push_neg at h
    simp only [polymarketPriceToDecimal]
    rw [if_neg]
    · simpa using h
    · push_neg
      exact h

/-! ## C9: falsy stored prices are defaulted to 1/2, not skipped -/

/-- C9. When a stored price snapshot has an absent or zero price, an NHL
game with at least one moneyline outcome still produces a comparison;
the price is substituted by 1/2, giving decimal odds 2 (so every edge is
computed as implied probability minus 1/2) and American odds +100. -/
theorem compareMarkets_default_price (gameKey : String) (b : BoltData)
    (tokenId : String) (p : PolySnapshot) (now : ℤ)
    (hs : b.sport = "NHL") (hml : findMoneylineOutcomes b ≠ [])
    (hp : p.price = none ∨ p.price = some 0) :
    compareMarkets gameKey b tokenId p now =
      some { gameKey := gameKey
             tokenId := tokenId
             boltOdds := findMoneylineOutcomes b
             polymarket := ⟨tokenId, 1/2, some 2, some 100⟩
             timestamp := now } := by
  rcases hp with h | h <;>
    simp [compareMarkets, hs, hml, h] <;>
    constructor <;>
    norm_num [polymarketPriceToDecimal, polymarketPriceToAmerican,
      decimalToAmerican, round_eq]

/-- Witness for C9: a one-outcome NHL game with an absent stored price. -/
theorem compareMarkets_default_price_witness :
    (⟨"NHL", "H", "A", "g1",
        [("o1", ⟨"Moneyline", "H", some 150, "l"⟩)]⟩ : BoltData).sport
        = "NHL" ∧
    findMoneylineOutcomes
        ⟨"NHL", "H", "A", "g1",
          [("o1", ⟨"Moneyline", "H", some 150, "l"⟩)]⟩ ≠ [] ∧
    compareMarkets "gk"
        ⟨"NHL", "H", "A", "g1",
          [("o1", ⟨"Moneyline", "H", some 150, "l"⟩)]⟩
        "tok" ⟨none, 3⟩ 9 =
      some { gameKey := "gk"
             tokenId := "tok"
             boltOdds := findMoneylineOutcomes
               ⟨"NHL", "H", "A", "g1",
                 [("o1", ⟨"Moneyline", "H", some 150, "l"⟩)]⟩
             polymarket := ⟨"tok", 1/2, some 2, some 100⟩
             timestamp := 9 } :=
  ⟨rfl, by decide,
   compareMarkets_default_price "gk" _ "tok" ⟨none, 3⟩ 9 rfl (by decide)
     (Or.inl rfl)⟩

/-! ## C7: the auto-sell sweep uses a hardcoded 2-hour limit -/

/-- Counterexample to C7. With the configured threshold set to half an
hour, a position held one hour exceeds the configured threshold but is
not queued by the sweep: the sweep compares against the literal 2, not
the configuration value. -/
theorem autoSell_ignores_config :
    ((3600000 - 0 : ℤ) : ℚ) / 3600000 >
      (⟨[("t", ⟨"t", "g", 10, 1/2, 0, "open", none, none⟩)], [], 100, 1/2⟩ :
        BotState).autoSellThreshold ∧
    checkAutoSellConditions
        ⟨[("t", ⟨"t", "g", 10, 1/2, 0, "open", none, none⟩)], [], 100, 1/2⟩
        3600000 = [] := by
  constructor
  · norm_num
  · norm_num [checkAutoSellConditions, List.filterMap_cons, List.filterMap_nil]

/-- C7 (amended). On each sweep, a token is queued for a full sell
exactly when its position's hours held exceed the literal constant 2 from
the source; the configured `autoSellThreshold` is stored by the
constructor but never consulted, so the sweep's output is independent of
it. In particular a position entered 3 hours ago is queued and one
entered 1 hour ago is not. -/
theorem autoSell_two_hour_sweep :
    (∀ (st : BotState) (now : ℤ) (tid : String),
      (tid ∈ checkAutoSellConditions st now ↔
        ∃ p : Position, (tid, p) ∈ st.activePositions ∧
          ((now - p.buyTime : ℤ) : ℚ) / 3600000 > 2) ∧
      ∀ t' : ℚ,
        checkAutoSellConditions
          ⟨st.activePositions, st.tradingHistory, st.maxPositionSize, t'⟩
          now = checkAutoSellConditions st now) ∧
    checkAutoSellConditions
        ⟨[("t3", ⟨"t3", "g", 10, 1/2, 0, "open", none, none⟩),
          ("t1", ⟨"t1", "g", 10, 1/2, 7200000, "open", none, none⟩)],
         [], 100, 1/10⟩ 10800000 = ["t3"] := by
  refine ⟨fun st now tid => ⟨?_, fun t' => rfl⟩, ?_⟩
  · simp only [checkAutoSellConditions, List.mem_filterMap]
    constructor
    · rintro ⟨⟨e1, e2⟩, he, hsome⟩
      by_cases hq : ((now - e2.buyTime : ℤ) : ℚ) / 3600000 > 2
      · rw [if_pos hq] at hsome
        injection hsome with h
        subst h
        exact ⟨e2, he, hq⟩
      · rw [if_neg hq] at hsome
        cases hsome
    · rintro ⟨p, hp, hq⟩
      exact ⟨(tid, p), hp, by rw [if_pos hq]⟩
  · norm_num [checkAutoSellConditions, List.filterMap_cons, List.filterMap_nil]

/-! ## C8: exponential-backoff reconnection with a hard cap -/

/-- C8. The n-th reconnection attempt is scheduled after
`reconnectDelay * 2 ^ (n - 1)`: one `handleReconnection` step below the
cap increments the counter from n-1 to n and schedules that delay; a run
of N consecutive failures from a fresh manager (N ≤ cap) leaves
`isConnected = false` with attempt count N, having scheduled the delays
`base * 2 ^ 0 .. base * 2 ^ (N-1)`; and once the counter has reached the
cap no further attempt is ever scheduled and the state — in particular
the Disconnected status — never changes again. -/
theorem reconnection_policy :
    (∀ s : ConnState,
      s.reconnectAttempts < s.maxReconnectAttempts →
        handleReconnection s =
          ({ s with reconnectAttempts := s.reconnectAttempts + 1 },
           some (s.reconnectDelay * 2 ^ s.reconnectAttempts))) ∧
    (∀ N cap base : ℕ, N ≤ cap →
        iterateReconnect ⟨false, 0, cap, base⟩ N =
          (⟨false, N, cap, base⟩,
           (List.range N).map fun i => base * 2 ^ i)) ∧
    (∀ (s : ConnState) (k : ℕ),
      s.maxReconnectAttempts ≤ s.reconnectAttempts →
        iterateReconnect s k = (s, [])) := by
  have hstep : ∀ s : ConnState,
      s.reconnectAttempts < s.maxReconnectAttempts →
        handleReconnection s =
          ({ s with reconnectAttempts := s.reconnectAttempts + 1 },
           some (s.reconnectDelay * 2 ^ s.reconnectAttempts)) := by
    intro s hs
    simp [handleReconnection, not_le.mpr hs]
  have hrun : ∀ (k a cap base : ℕ) (c : Bool), a + k ≤ cap →
      iterateReconnect ⟨c, a, cap, base⟩ k =
        (⟨c, a + k, cap, base⟩,
         (List.range k).map fun i => base * 2 ^ (a + i)) := by
    intro k
    induction k with
    | zero => intro a cap base c _; simp [iterateReconnect]
    | succ k ih =>
        intro a cap base c hak
        have ha : a < cap := lt_of_lt_of_le (by omega) hak
        have hs := hstep ⟨c, a, cap, base⟩ ha
        simp only [iterateReconnect, hs]
        rw [ih (a + 1) cap base c (by omega)]
        simp only [Option.elim_some, Prod.mk.injEq]
        have h1 : a + 1 + k = a + (k + 1) := by omega
        refine ⟨by rw [h1], ?_⟩
        rw [List.range_succ_eq_map, List.map_cons, List.map_map]
        refine congrArg₂ List.cons (by simp) ?_
        refine List.map_congr_left ?_
        intro i _
        simp only [Function.comp_apply]
        have h2 : a + 1 + i = a + Nat.succ i := by omega
        rw [h2]
  refine ⟨hstep, ?_, ?_⟩
  · intro N cap base hN
    have h := hrun N 0 cap base false (by omega)
    simpa using h
  · intro s k hs
    induction k with
    | zero => rfl
    | succ k ih =>
        have h1 : handleReconnection s = (s, none) := by
          simp [handleReconnection, hs]
        simp [iterateReconnect, h1, ih]

/-- Witness for C8 at the constructor defaults (cap 10, base delay 5000):
one step from 3 failures, a fresh run of 3 failures, and a capped manager
that schedules nothing over 5 further events. -/
theorem reconnection_policy_witness :
    ((⟨false, 3, 10, 5000⟩ : ConnState).reconnectAttempts <
        (⟨false, 3, 10, 5000⟩ : ConnState).maxReconnectAttempts ∧
      handleReconnection ⟨false, 3, 10, 5000⟩ =
        (⟨false, 4, 10, 5000⟩, some (5000 * 2 ^ 3))) ∧
    ((3 : ℕ) ≤ 10 ∧
      iterateReconnect ⟨false, 0, 10, 5000⟩ 3 =
        (⟨false, 3, 10, 5000⟩, (List.range 3).map fun i => 5000 * 2 ^ i)) ∧
    ((⟨false, 10, 10, 5000⟩ : ConnState).maxReconnectAttempts ≤
        (⟨false, 10, 10, 5000⟩ : ConnState).reconnectAttempts ∧
      iterateReconnect ⟨false, 10, 10, 5000⟩ 5 =
        (⟨false, 10, 10, 5000⟩, [])) :=
  ⟨⟨by decide, reconnection_policy.1 ⟨false, 3, 10, 5000⟩ (by decide)⟩,
   ⟨by decide, reconnection_policy.2.1 3 10 5000 (by decide)⟩,
   ⟨by decide, reconnection_policy.2.2 ⟨false, 10, 10, 5000⟩ 5 (by decide)⟩⟩

/-! ## C3: the sell contract -/

/-- C3. `sellPosition` fails with NotFound when no active position exists
and with NoLiquidity when the order book has no bid, in both cases
leaving the ledger and history unchanged; on success it decrements the
position amount by the executed sell amount, removes the position from
the active set when the amount reaches (or passes) zero, keeps it with
the decremented amount otherwise, and always appends a "sell" history
entry. -/
theorem sellPosition_contract (st : BotState) (tokenId : String)
    (amount : Option ℚ) (ob : Orderbook) (now : ℤ) :
    (mapFind st.activePositions tokenId = none →
      sellPosition st tokenId amount ob now = .error .notFound ∧
      applyOp st (.sell tokenId amount ob now) = st) ∧
    (∀ e, mapFind st.activePositions tokenId = some e → ob.bids = [] →
      sellPosition st tokenId amount ob now = .error .noLiquidity ∧
      applyOp st (.sell tokenId amount ob now) = st) ∧
    (∀ e b bs, mapFind st.activePositions tokenId = some e →
      ob.bids = b :: bs →
      ∃ st', sellPosition st tokenId amount ob now =
          .ok (st', sellAmountOf e.2 amount) ∧
        st'.tradingHistory = st.tradingHistory ++
          [⟨tokenId, "sell", sellAmountOf e.2 amount, b, now⟩] ∧
        (e.2.amount - sellAmountOf e.2 amount ≤ 0 →
          ∀ x ∈ st'.activePositions, x.1 ≠ tokenId) ∧
        (0 < e.2.amount - sellAmountOf e.2 amount →
          mapFind st'.activePositions tokenId = some (tokenId,
            { e.2 with
              amount := e.2.amount - sellAmountOf e.2 amount,
              sellPrice := some b,
              sellTime := some now }))) := by
  refine ⟨?_, ?_, ?_⟩
  · intro hfind
    constructor
    · simp [sellPosition, hfind]
    · simp [applyOp, sellPosition, hfind]
  · intro e hfind hbids
    constructor
    · simp [sellPosition, hfind, hbids]
    · simp [applyOp, sellPosition, hfind, hbids]
  · intro e b bs hfind hbids
    by_cases hz : e.2.amount - sellAmountOf e.2 amount ≤ 0
    · have hsp : sellPosition st tokenId amount ob now = .ok
          ({ st with
             activePositions :=
               st.activePositions.filter (fun x => !(x.1 == tokenId))
             tradingHistory := st.tradingHistory ++
               [⟨tokenId, "sell", sellAmountOf e.2 amount, b, now⟩] },
           sellAmountOf e.2 amount) := by
        simp [sellPosition, hfind, hbids, hz]
      refine ⟨_, hsp, rfl, fun _ x hx => ?_,
        fun h => absurd hz (not_le.mpr h)⟩
      have hx' := (List.mem_filter.mp hx).2
      simpa using hx'
    · have hsp : sellPosition st tokenId amount ob now = .ok
          ({ st with
             activePositions := mapSet st.activePositions tokenId
               { e.2 with
                 amount := e.2.amount - sellAmountOf e.2 amount,
                 sellPrice := some b,
                 sellTime := some now }
             tradingHistory := st.tradingHistory ++
               [⟨tokenId, "sell", sellAmountOf e.2 amount, b, now⟩] },
           sellAmountOf e.2 amount) := by
        simp [sellPosition, hfind, hbids, hz]
      refine ⟨_, hsp, rfl, fun h => absurd h hz, fun _ => ?_⟩
      exact mapFind_mapSet_self st.activePositions tokenId _

/-- Witness for C3: a ledger with one open position of amount 10; a
missing token gives NotFound, an empty bid side gives NoLiquidity, and a
full sell against a bid of 2/5 empties the active set and appends the
"sell" entry. -/
theorem sellPosition_contract_witness :
    (mapFind ([] : List (String × Position)) "t" = none ∧
      (sellPosition ⟨[], [], 100, 1/10⟩ "t" none ⟨[3/5], [2/5]⟩ 5 =
          .error .notFound ∧
        applyOp ⟨[], [], 100, 1/10⟩ (.sell "t" none ⟨[3/5], [2/5]⟩ 5) =
          ⟨[], [], 100, 1/10⟩)) ∧
    (mapFind [("t", (⟨"t", "g", 10, 1/2, 0, "open", none, none⟩ : Position))]
          "t" = some ("t", ⟨"t", "g", 10, 1/2, 0, "open", none, none⟩) ∧
      (sellPosition ⟨[("t", ⟨"t", "g", 10, 1/2, 0, "open", none, none⟩)],
            [], 100, 1/10⟩ "t" none ⟨[3/5], []⟩ 5 = .error .noLiquidity ∧
        applyOp ⟨[("t", ⟨"t", "g", 10, 1/2, 0, "open", none, none⟩)],
            [], 100, 1/10⟩ (.sell "t" none ⟨[3/5], []⟩ 5) =
          ⟨[("t", ⟨"t", "g", 10, 1/2, 0, "open", none, none⟩)],
            [], 100, 1/10⟩)) ∧
    ∃ st', sellPosition ⟨[("t", ⟨"t", "g", 10, 1/2, 0, "open", none, none⟩)],
          [], 100, 1/10⟩ "t" none ⟨[3/5], [2/5]⟩ 5 =
        .ok (st', sellAmountOf ⟨"t", "g", 10, 1/2, 0, "open", none, none⟩
          none) ∧
      st'.tradingHistory = [] ++
        [⟨"t", "sell", sellAmountOf
          (⟨"t", "g", 10, 1/2, 0, "open", none, none⟩ : Position) none,
          2/5, 5⟩] ∧
      ((⟨"t", "g", 10, 1/2, 0, "open", none, none⟩ : Position).amount -
          sellAmountOf ⟨"t", "g", 10, 1/2, 0, "open", none, none⟩ none ≤ 0 →
        ∀ x ∈ st'.activePositions, x.1 ≠ "t") ∧
      (0 < (⟨"t", "g", 10, 1/2, 0, "open", none, none⟩ : Position).amount -
          sellAmountOf ⟨"t", "g", 10, 1/2, 0, "open", none, none⟩ none →
        mapFind st'.activePositions "t" = some ("t",
          { (⟨"t", "g", 10, 1/2, 0, "open", none, none⟩ : Position) with
            amount := (⟨"t", "g", 10, 1/2, 0, "open", none,
              none⟩ : Position).amount -
              sellAmountOf ⟨"t", "g", 10, 1/2, 0, "open", none, none⟩ none,
            sellPrice := some (2/5), sellTime := some 5 })) :=
  ⟨⟨rfl, (sellPosition_contract ⟨[], [], 100, 1/10⟩ "t" none
      ⟨[3/5], [2/5]⟩ 5).1 rfl⟩,
   ⟨rfl, (sellPosition_contract
      ⟨[("t", ⟨"t", "g", 10, 1/2, 0, "open", none, none⟩)], [], 100, 1/10⟩
      "t" none ⟨[3/5], []⟩ 5).2.1
      ("t", ⟨"t", "g", 10, 1/2, 0, "open", none, none⟩) rfl rfl⟩,
   (sellPosition_contract
      ⟨[("t", ⟨"t", "g", 10, 1/2, 0, "open", none, none⟩)], [], 100, 1/10⟩
      "t" none ⟨[3/5], [2/5]⟩ 5).2.2
      ("t", ⟨"t", "g", 10, 1/2, 0, "open", none, none⟩) (2/5) [] rfl rfl⟩

/-! ## C10: overselling is neither rejected nor clamped -/

/-- C10. When a bid exists and the requested (nonzero) sell amount
strictly exceeds the open position's remaining amount, `sellPosition`
succeeds anyway: the "sell" history entry records the full requested
amount, the position's new amount is negative, and the position is
removed from the active set. -/
theorem sellPosition_oversell (st : BotState) (tokenId : String)
    (e : String × Position) (a b : ℚ) (bs : List ℚ) (ob : Orderbook)
    (now : ℤ) (hfind : mapFind st.activePositions tokenId = some e)
    (hbids : ob.bids = b :: bs) (hover : e.2.amount < a) (ha0 : a ≠ 0) :
    ∃ st', sellPosition st tokenId (some a) ob now = .ok (st', a) ∧
      st'.tradingHistory =
        st.tradingHistory ++ [⟨tokenId, "sell", a, b, now⟩] ∧
      (∀ x ∈ st'.activePositions, x.1 ≠ tokenId) ∧
      e.2.amount - a < 0 := by
  have hsa : sellAmountOf e.2 (some a) = a := by simp [sellAmountOf, ha0]
  have hneg : e.2.amount - a < 0 := by linarith
  have hsp : sellPosition st tokenId (some a) ob now = .ok
      ({ st with
         activePositions :=
           st.activePositions.filter (fun x => !(x.1 == tokenId))
         tradingHistory := st.tradingHistory ++
           [⟨tokenId, "sell", a, b, now⟩] }, a) := by
    simp [sellPosition, hfind, hbids, hsa, le_of_lt hneg]
  refine ⟨_, hsp, rfl, fun x hx => ?_, hneg⟩
  have hx' := (List.mem_filter.mp hx).2
  simpa using hx'

/-- Witness for C10: selling 15 out of a position of 10 succeeds, records
amount 15, empties the active set, and leaves the notional amount -5. -/
theorem sellPosition_oversell_witness :
    mapFind [("t", (⟨"t", "g", 10, 1/2, 0, "open", none, none⟩ : Position))]
        "t" = some ("t", ⟨"t", "g", 10, 1/2, 0, "open", none, none⟩) ∧
    ((⟨[3/5], [2/5]⟩ : Orderbook).bids = (2/5) :: []) ∧
    ((⟨"t", "g", 10, 1/2, 0, "open", none, none⟩ : Position).amount <
      (15 : ℚ)) ∧ (15 : ℚ) ≠ 0 ∧
    ∃ st', sellPosition ⟨[("t", ⟨"t", "g", 10, 1/2, 0, "open", none, none⟩)],
          [], 100, 1/10⟩ "t" (some 15) ⟨[3/5], [2/5]⟩ 5 = .ok (st', 15) ∧
      st'.tradingHistory = [] ++ [⟨"t", "sell", 15, 2/5, 5⟩] ∧
      (∀ x ∈ st'.activePositions, x.1 ≠ "t") ∧
      ((⟨"t", "g", 10, 1/2, 0, "open", none, none⟩ : Position).amount -
        15 < 0) :=
  ⟨rfl, rfl, by norm_num, by norm_num,
   sellPosition_oversell ⟨[("t", ⟨"t", "g", 10, 1/2, 0, "open", none, none⟩)],
      [], 100, 1/10⟩ "t" ("t", ⟨"t", "g", 10, 1/2, 0, "open", none, none⟩)
      15 (2/5) [] ⟨[3/5], [2/5]⟩ 5 rfl rfl (by norm_num) (by norm_num)⟩

/-! ## C2: at most one open position per instrument -/

theorem applyOp_ledger_inv (st : BotState) (op : BotOp)
    (h : ((st.activePositions.map Prod.fst).Nodup ∧
      ∀ e ∈ st.activePositions, e.2.status = "open")) :
    (((applyOp st op).activePositions.map Prod.fst).Nodup ∧
      ∀ e ∈ (applyOp st op).activePositions, e.2.status = "open") := by
  obtain ⟨hnd, hop⟩ := h
  cases op with
  | buy opp ob now =>
      simp only [applyOp, evaluateOpportunity]
      split
      · exact ⟨hnd, hop⟩
      · split
        · exact ⟨hnd, hop⟩
        · split
          · simp only [executeBuyOrder]
            rcases ob.asks.head? with _ | ask
            · exact ⟨hnd, hop⟩
            · refine ⟨mapSet_keys_nodup _ _ hnd, ?_⟩
              intro e he
              rcases mapSet_mem he with rfl | he'
              · rfl
              · exact hop e he'
          · exact ⟨hnd, hop⟩
  | sell tokenId amount ob now =>
      rcases hfind : mapFind st.activePositions tokenId with _ | entry
      · have happ : applyOp st (.sell tokenId amount ob now) = st := by
          simp [applyOp, sellPosition, hfind]
        rw [happ]
        exact ⟨hnd, hop⟩
      · rcases hb : ob.bids.head? with _ | bid
        · have happ : applyOp st (.sell tokenId amount ob now) = st := by
            simp [applyOp, sellPosition, hfind, hb]
          rw [happ]
          exact ⟨hnd, hop⟩
        · have hmem : entry ∈ st.activePositions :=
            List.mem_of_find?_eq_some hfind
          by_cases hz : entry.2.amount - sellAmountOf entry.2 amount ≤ 0
          · have happ : applyOp st (.sell tokenId amount ob now) =
                { st with
                  activePositions :=
                    st.activePositions.filter (fun x => !(x.1 == tokenId))
                  tradingHistory := st.tradingHistory ++
                    [⟨tokenId, "sell", sellAmountOf entry.2 amount, bid,
                      now⟩] } := by
              simp [applyOp, sellPosition, hfind, hb, hz]
            rw [happ]
            refine ⟨filter_keys_nodup _ _ hnd, ?_⟩
            intro e he
            exact hop e (List.mem_filter.mp he).1
          · have happ : applyOp st (.sell tokenId amount ob now) =
                { st with
                  activePositions := mapSet st.activePositions tokenId
                    { entry.2 with
                      amount := entry.2.amount - sellAmountOf entry.2 amount,
                      sellPrice := some bid,
                      sellTime := some now }
                  tradingHistory := st.tradingHistory ++
                    [⟨tokenId, "sell", sellAmountOf entry.2 amount, bid,
                      now⟩] } := by
              simp [applyOp, sellPosition, hfind, hb, hz]
            rw [happ]
            refine ⟨mapSet_keys_nodup _ _ hnd, ?_⟩
            intro e he
            rcases mapSet_mem he with rfl | he'
            · exact hop entry hmem
            · exact hop e he'

/-- C2. The position ledger keeps at most one open position per
instrument: starting from the empty ledger, any sequence of buy/sell
operations yields pairwise-distinct instrument keys with every active
entry in status "open"; `evaluateOpportunity` is a no-op whenever a
position for the opportunity's token already exists; and a successful
sell removes the token from the active set exactly when the position
closes (new amount ≤ 0). -/
theorem position_invariant :
    (∀ (M T : ℚ) (ops : List BotOp),
      ((runOps (initBotState M T) ops).activePositions.map Prod.fst).Nodup ∧
      ∀ e ∈ (runOps (initBotState M T) ops).activePositions,
        e.2.status = "open") ∧
    (∀ (st : BotState) (opp : Opp) (ob : Orderbook) (now : ℤ),
      (mapFind st.activePositions opp.recommendation.tokenId).isSome = true →
      evaluateOpportunity st opp ob now = st) ∧
    (∀ (st : BotState) (tokenId : String) (amount : Option ℚ)
        (ob : Orderbook) (now : ℤ) (st' : BotState) (a : ℚ)
        (e : String × Position),
      mapFind st.activePositions tokenId = some e →
      sellPosition st tokenId amount ob now = .ok (st', a) →
      ((∀ x ∈ st'.activePositions, x.1 ≠ tokenId) ↔ e.2.amount - a ≤ 0)) := by
  refine ⟨?_, ?_, ?_⟩
  · intro M T ops
    have hrun : ∀ (st : BotState),
        ((st.activePositions.map Prod.fst).Nodup ∧
          ∀ e ∈ st.activePositions, e.2.status = "open") →
        (((runOps st ops).activePositions.map Prod.fst).Nodup ∧
          ∀ e ∈ (runOps st ops).activePositions, e.2.status = "open") := by
      induction ops with
      | nil => intro st h; exact h
      | cons op rest ih =>
          intro st h
          exact ih (applyOp st op) (applyOp_ledger_inv st op h)
    refine hrun (initBotState M T) ⟨by simp [initBotState], ?_⟩
    intro e he
    simp [initBotState] at he
  · intro st opp ob now h
    simp [evaluateOpportunity, h]
  · intro st tokenId amount ob now st' a e hfind hsp
    rcases hb : ob.bids.head? with _ | bid
    · simp [sellPosition, hfind, hb] at hsp
    · by_cases hz : e.2.amount - sellAmountOf e.2 amount ≤ 0
      · have hsp' : sellPosition st tokenId amount ob now = .ok
            ({ st with
               activePositions :=
                 st.activePositions.filter (fun x => !(x.1 == tokenId))
               tradingHistory := st.tradingHistory ++
                 [⟨tokenId, "sell", sellAmountOf e.2 amount, bid, now⟩] },
             sellAmountOf e.2 amount) := by
          simp [sellPosition, hfind, hb, hz]
        rw [hsp'] at hsp
        injection hsp with hsp
        injection hsp with hst ha
        subst hst
        subst ha
        refine iff_of_true ?_ hz
        intro x hx
        have hx' := (List.mem_filter.mp hx).2
        simpa using hx'
      · have hsp' : sellPosition st tokenId amount ob now = .ok
            ({ st with
               activePositions := mapSet st.activePositions tokenId
                 { e.2 with
                   amount := e.2.amount - sellAmountOf e.2 amount,
                   sellPrice := some bid,
                   sellTime := some now }
               tradingHistory := st.tradingHistory ++
                 [⟨tokenId, "sell", sellAmountOf e.2 amount, bid, now⟩] },
             sellAmountOf e.2 amount) := by
          simp [sellPosition, hfind, hb, hz]
        rw [hsp'] at hsp
        injection hsp with hsp
        injection hsp with hst ha
        subst hst
        subst ha
        refine iff_of_false ?_ hz
        intro hall
        exact hall _ (mapSet_mem_self st.activePositions tokenId _) rfl

/-- Witness for C2: a two-operation run from the empty ledger, a skipped
buy for a token that already has a position, and a successful full sell
whose removal condition holds. -/
theorem position_invariant_witness :
    (((runOps (initBotState 100 (1/10)) []).activePositions.map
        Prod.fst).Nodup ∧
      ∀ e ∈ (runOps (initBotState 100 (1/10)) []).activePositions,
        e.2.status = "open") ∧
    ((mapFind [("t", (⟨"t", "g", 10, 1/2, 0, "open", none,
          none⟩ : Position))] "t").isSome = true ∧
      evaluateOpportunity
        ⟨[("t", ⟨"t", "g", 10, 1/2, 0, "open", none, none⟩)], [], 100, 1/10⟩
        ⟨⟨"g", "t", [⟨"A", -233, 10/7, 7/10⟩], ⟨"t", 1/2, some 2, some 100⟩,
            0⟩,
          ⟨1/5, ⟨"A", -233, 10/7, 7/10⟩, 2, "buy", "high"⟩,
          ⟨"buy", "t", "high", 1/5⟩⟩
        ⟨[3/5], [2/5]⟩ 0 =
        ⟨[("t", ⟨"t", "g", 10, 1/2, 0, "open", none, none⟩)], [], 100,
          1/10⟩) ∧
    ((∀ x ∈ (⟨[], [⟨"t", "sell", 10, 2/5, 5⟩], 100,
          1/10⟩ : BotState).activePositions,
        x.1 ≠ "t") ↔
      (⟨"t", "g", 10, 1/2, 0, "open", none, none⟩ : Position).amount -
        10 ≤ 0) :=
  ⟨position_invariant.1 100 (1/10) [],
   ⟨rfl, position_invariant.2.1
      ⟨[("t", ⟨"t", "g", 10, 1/2, 0, "open", none, none⟩)], [], 100, 1/10⟩
      ⟨⟨"g", "t", [⟨"A", -233, 10/7, 7/10⟩], ⟨"t", 1/2, some 2, some 100⟩,
          0⟩,
        ⟨1/5, ⟨"A", -233, 10/7, 7/10⟩, 2, "buy", "high"⟩,
        ⟨"buy", "t", "high", 1/5⟩⟩
      ⟨[3/5], [2/5]⟩ 0 rfl⟩,
   position_invariant.2.2
      ⟨[("t", ⟨"t", "g", 10, 1/2, 0, "open", none, none⟩)], [], 100, 1/10⟩
      "t" none ⟨[3/5], [2/5]⟩ 5
      ⟨[], [⟨"t", "sell", 10, 2/5, 5⟩], 100, 1/10⟩ 10
      ("t", ⟨"t", "g", 10, 1/2, 0, "open", none, none⟩) rfl
      (by norm_num [sellPosition, mapFind, List.find?, sellAmountOf,
        mapSet])⟩

/-! ## C6: opportunity search is a pure, sorted read -/

theorem compareMarkets_retime (gk : String) (b : BoltData) (tid : String)
    (p : PolySnapshot) (n n' : ℤ) :
    compareMarkets gk b tid p n' =
      (compareMarkets gk b tid p n).map (retimeComparison n') := by
  by_cases hs : b.sport ≠ "NHL"
  · simp [compareMarkets, hs]
  · by_cases hml : findMoneylineOutcomes b = []
    · simp [compareMarkets, hs, hml]
    · simp [compareMarkets, hs, hml, retimeComparison]

theorem filterMap_compareMarkets_retime
    (P : List (String × PolySnapshot)) (gk : String) (b : BoltData)
    (n n' : ℤ) :
    P.filterMap (fun t => compareMarkets gk b t.1 t.2 n') =
      (P.filterMap (fun t => compareMarkets gk b t.1 t.2 n)).map
        (retimeComparison n') := by
  induction P with
  | nil => rfl
  | cons t rest ih =>
      simp only [List.filterMap_cons]
      rw [compareMarkets_retime gk b t.1 t.2 n n']
      cases compareMarkets gk b t.1 t.2 n with
      | none => simpa using ih
      | some c => simp [ih]

theorem findMatchingMarkets_retime (st : OCState) (n n' : ℤ) :
    findMatchingMarkets st n' =
      (findMatchingMarkets st n).map (retimeComparison n') := by
  simp only [findMatchingMarkets]
  induction st.boltOddsData with
  | nil => rfl
  | cons g rest ih =>
      simp only [List.flatMap_cons, List.map_append]
      rw [filterMap_compareMarkets_retime st.polymarketData g.1 g.2.data
        n n', ih]

theorem calculateValue_retime (t : ℚ) (c : Comparison) (n : ℤ) :
    calculateValue t (retimeComparison n c) = calculateValue t c := rfl

theorem mkOpp_retime (c : Comparison) (v : ValueAnalysis) (n : ℤ) :
    mkOpp (retimeComparison n c) v = retimeOpp n (mkOpp c v) := rfl

/-- C6. `findTradingOpportunities` leaves the component state unchanged,
returns a descending-by-edge sorted permutation of exactly those matches
for which `calculateValue` produced an analysis — every returned
opportunity's edge exceeds the threshold — and calling it again on the
same stores returns the same opportunities (the only difference being the
pass timestamp stamped into each comparison). -/
theorem findTradingOpportunities_pure_sorted (st : OCState) (n n' : ℤ) :
    (findTradingOpportunities st n).2 = st ∧
    List.Sorted oppGE (findTradingOpportunities st n).1 ∧
    (findTradingOpportunities st n).1.Perm
      ((findMatchingMarkets st n).filterMap fun m =>
        (calculateValue st.valueThreshold m).map (mkOpp m)) ∧
    (∀ o ∈ (findTradingOpportunities st n).1,
      st.valueThreshold < o.valueAnalysis.value) ∧
    (findTradingOpportunities st n').1 =
      (findTradingOpportunities st n).1.map (retimeOpp n') := by
  refine ⟨rfl, List.sorted_insertionSort oppGE _,
    List.perm_insertionSort oppGE _, ?_, ?_⟩
  · intro o ho
    simp only [findTradingOpportunities, List.mem_insertionSort,
      List.mem_filterMap] at ho
    obtain ⟨m, _, hmap⟩ := ho
    rcases hcv : calculateValue st.valueThreshold m with _ | va
    · rw [hcv] at hmap; cases hmap
    · rw [hcv] at hmap
      simp only [Option.map_some'] at hmap
      injection hmap with hmap
      have hva : o.valueAnalysis = va := by rw [← hmap]; rfl
      rw [hva]
      exact calculateValue_some_gt st.valueThreshold m va hcv
  · simp only [findTradingOpportunities]
    rw [findMatchingMarkets_retime st n n', List.filterMap_map]
    have hcomp : ∀ m : Comparison,
        ((fun m => (calculateValue st.valueThreshold m).map (mkOpp m)) ∘
          retimeComparison n') m =
        ((calculateValue st.valueThreshold m).map (mkOpp m)).map
          (retimeOpp n') := by
      intro m
      simp only [Function.comp_apply, calculateValue_retime]
      rcases calculateValue st.valueThreshold m with _ | va
      · rfl
      · simp only [Option.map_some']
        rw [mkOpp_retime]
    rw [List.filterMap_congr (fun m _ => hcomp m), ← List.map_filterMap]
    exact (List.map_insertionSort oppGE oppGE (retimeOpp n') _
      (fun a _ b _ => Iff.rfl)).symm

end NHLBot
